import Mathlib

/-!
Shallow embedding of the glyph-substitution reversal engine
(`crates/engine_spx2html/src/font/mod.rs`) and of the bibtex buffer scanner
(`crates/engine_bibtex/src/c_api/scan.rs`), with theorems settling the
spec claims about them.

Machine integers are modelled as `Nat` (glyph ids, indices, bytes) and `Int`
(the signed substitution delta), with explicit `% 65536` where the code
truncates to `u16`.  Fallible lookups are `Option`; the callback-style
visitors of the Rust code are modelled as functions returning the list of
glyphs passed to the callback, paired with the `Option<()>` result.
-/

namespace Font

/-- Glyph ids are `u16` values in the font; modelled as `Nat`. -/
abbrev GlyphId := Nat

/-- `ttf_parser` coverage-table view: a `glyph → optional index` query
(`Coverage::get`). -/
structure Coverage where
  get : GlyphId → Option Nat

/-- One alternate set of an alternate-substitution subtable
(`ttf_parser::gsub::AlternateSet`): an ordered list of alternate glyphs. -/
structure AlternateSet where
  alternates : List GlyphId

/-- `ttf_parser::gsub::AlternateSubstitution`: a coverage table plus the
array of alternate sets indexed by coverage index. -/
structure AlternateSubstitution where
  coverage : Coverage
  alternate_sets : List AlternateSet

/-- `ttf_parser::gsub::SingleSubstitution`: either Format1 (signed delta)
or Format2 (explicit substitute array indexed by coverage index). -/
inductive SingleSubstitution where
  | format1 (coverage : Coverage) (delta : Int)
  | format2 (coverage : Coverage) (substitutes : List GlyphId)

/-- `AlternateSubstitution::visit_glyph` from `font/mod.rs`: coverage lookup,
then alternate-set lookup; iterate the whole set through the callback.
Returns the glyphs passed to the callback and the `Option<()>` result
(always `Some(())` here). -/
def AlternateSubstitution.visit_glyph (t : AlternateSubstitution) (dglyph : GlyphId) :
    List GlyphId × Option Unit :=
  match (t.coverage.get dglyph).bind (fun index => t.alternate_sets.get? index) with
  | some a => (a.alternates, some ())
  | none => ([], some ())

/-- `SingleSubstitution::visit_glyph` from `font/mod.rs`.  Format1: on a
coverage hit apply `(i32::from(g) + i32::from(delta)) as u16`, modelled as
`((g + delta) % 65536).toNat` (the `i32` sum cannot overflow for `u16`
glyph plus `i16` delta, and `as u16` keeps the low 16 bits).  Format2: on a
coverage hit, `substitutes.get(index)?` — a dangling index aborts with
`None` having applied nothing. -/
def SingleSubstitution.visit_glyph : SingleSubstitution → GlyphId → List GlyphId × Option Unit
  | .format1 coverage delta, dglyph =>
    match coverage.get dglyph with
    | some _ => ([((Int.ofNat dglyph + delta) % 65536).toNat], some ())
    | none => ([], some ())
  | .format2 coverage substitutes, dglyph =>
    match coverage.get dglyph with
    | some index =>
      match substitutes.get? index with
      | some s => ([s], some ())
      | none => ([], none)
    | none => ([], some ())

/-- One record of a math glyph-construction variant list
(`ttf_parser::math::GlyphVariantRecord`); only the variant glyph matters
here. -/
structure GlyphVariantRecord where
  variant_glyph : GlyphId

/-- One math glyph construction (`ttf_parser::math::GlyphConstruction`):
its ordered variant-record list. -/
structure GlyphConstruction where
  variants : List GlyphVariantRecord

/-- `ttf_parser::math::Variants`: per-orientation `glyph → optional
construction` queries (`GlyphConstructions::get`). -/
structure Variants where
  horizontal_constructions : GlyphId → Option GlyphConstruction
  vertical_constructions : GlyphId → Option GlyphConstruction

/-- `math::Variants::visit_glyph` from `font/mod.rs`: apply the callback to
every horizontal construction variant of the glyph, then to every vertical
one; a missing construction on either side contributes nothing. -/
def Variants.visit_glyph (v : Variants) (dglyph : GlyphId) : List GlyphId × Option Unit :=
  ((match (v.horizontal_constructions dglyph).map (fun gc => gc.variants) with
    | some hvars => hvars.map (fun hvar => hvar.variant_glyph)
    | none => []) ++
   (match (v.vertical_constructions dglyph).map (fun gc => gc.variants) with
    | some vvars => vvars.map (fun vvar => vvar.variant_glyph)
    | none => []),
   some ())

/-- One substitution subtable as parsed by
`self.subtables.into_iter::<SubstitutionSubtable>()`: the loader only acts
on `Single` and `Alternate`; every other kind falls into the `_ => {}`
arm. -/
inductive SubstitutionSubtable where
  | single (t : SingleSubstitution)
  | alternate (t : AlternateSubstitution)
  | other

/-- `ttf_parser::opentype_layout::Lookup`: its ordered subtable list. -/
structure Lookup where
  subtables : List SubstitutionSubtable

/-- `Lookup::visit_glyph` from `font/mod.rs`: visit each subtable in order,
discarding each subtable visit's `Option` result (the Rust code calls
`t.visit_glyph(dglyph, f);` as a statement), and return `Some(())`. -/
def Lookup.visit_glyph (l : Lookup) (dglyph : GlyphId) : List GlyphId × Option Unit :=
  (l.subtables.foldl (fun acc subtable =>
    match subtable with
    | .single t => acc ++ (t.visit_glyph dglyph).1
    | .alternate t => acc ++ (t.visit_glyph dglyph).1
    | .other => acc) [],
   some ())

/-- A feature of the layout table (`ttf_parser::opentype_layout::Feature`):
a 4-byte tag (the bytes, each `< 256`) and its ordered lookup indices. -/
structure Feature where
  tag : List Nat
  lookup_indices : List Nat
deriving DecidableEq

/-- `ttf_parser::opentype_layout::LayoutTable`: ordered features and ordered
lookups (`lookups.get` is an `Option`-returning index). -/
structure LayoutTable where
  features : List Feature
  lookups : List Lookup

/-- The `Variant` enum of `font/mod.rs`. -/
inductive Variant where
  | Direct
  | Ssty
  | Math
  | CharacterVariant (n : Nat)
  | StylisticSet (n : Nat)
deriving DecidableEq

/-- `ReverseGlyphMap` of `font/mod.rs`: an `AHashMap<GlyphId, (char,
Variant)>`, modelled as an association list where `insert` replaces any
previous binding of the key. -/
structure ReverseGlyphMap where
  inner : List (GlyphId × (Char × Variant))

/-- `ReverseGlyphMap::new` (`Default::default`): the empty map. -/
def ReverseGlyphMap.new : ReverseGlyphMap := ⟨[]⟩

/-- `ReverseGlyphMap::query_usv`: `self.inner.get(&glyph).copied()`. -/
def ReverseGlyphMap.query_usv (m : ReverseGlyphMap) (glyph : GlyphId) : Option (Char × Variant) :=
  (m.inner.find? (fun p => p.1 = glyph)).map (fun p => p.2)

/-- `ReverseGlyphMap::insert`: `self.inner.insert(glyph, usv)` — stores
`usv` under `glyph` and returns the previously stored value, if any. -/
def ReverseGlyphMap.insert (m : ReverseGlyphMap) (usv : Char × Variant) (glyph : GlyphId) :
    Option (Char × Variant) × ReverseGlyphMap :=
  (m.query_usv glyph, ⟨(glyph, usv) :: m.inner.filter (fun p => ¬ p.1 = glyph)⟩)

/-- `ReverseGlyphMap::len`: the number of distinct keys (each key occurs at
most once in `inner`). -/
def ReverseGlyphMap.len (m : ReverseGlyphMap) : Nat := m.inner.length

/-- The digit step of Rust's `u16::from_str` (`from_str_radix(s, 10)`):
`char::to_digit(10)` — `Some(c - '0')` for an ASCII digit, else `None`. -/
def digitVal (c : Char) : Option Nat :=
  if c.isDigit then some (c.toNat - 48) else none

/-- Rust `str::parse::<u16>` (`u16::from_str_radix(src, 10)`) on a char
list: an optional leading `'+'` (a `'-'` is rejected by the digit check for
an unsigned type), then at least one decimal digit, accumulating
`acc * 10 + d` with a `u16` overflow check at each step. -/
def rustParseU16 (s : List Char) : Option Nat :=
  let digits := match s with
    | c :: rest => if c = '+' then rest else s
    | [] => []
  match digits with
  | [] => none
  | _ =>
    digits.foldl (fun acc c =>
      acc.bind (fun n => (digitVal c).bind (fun d =>
        if n * 10 + d < 65536 then some (n * 10 + d) else none))) (some 0)

/-- `ttf_parser::Tag::to_string` on a 4-byte tag: each byte becomes one
`char`. -/
def tagChars (tag : List Nat) : List Char := tag.map (fun b => Char.ofNat b)

/-- `get_tag_variant` from `font/mod.rs`: match the tag's string — exactly
`"ssty"` gives `Ssty`; a `"cv"` prefix parses the remaining two characters
as `u16` and keeps 1..=99 as `CharacterVariant`; an `"ss"` prefix parses
them as `u16` and keeps 1..=20 as `StylisticSet`; anything else is `None`. -/
def get_tag_variant (tag : List Nat) : Option Variant :=
  let s := tagChars tag
  if s = ['s', 's', 't', 'y'] then some Variant.Ssty
  else if s.take 2 = ['c', 'v'] then
    ((rustParseU16 (s.drop 2)).filter (fun n => decide (1 ≤ n ∧ n ≤ 99))).map
      (fun n => Variant.CharacterVariant n)
  else if s.take 2 = ['s', 's'] then
    ((rustParseU16 (s.drop 2)).filter (fun n => decide (1 ≤ n ∧ n ≤ 20))).map
      (fun n => Variant.StylisticSet n)
  else none

/-- `load_gsub` from `font/mod.rs`: for every seed pair, for every feature
whose tag classifies as supported, for every lookup index that resolves in
`gsub.lookups`, visit the lookup for the seed glyph and insert every
produced glyph with `(codepoint, classified variant)`; returns `Some(())`. -/
def load_gsub (reverse_gmap : ReverseGlyphMap) (gsub : LayoutTable)
    (dglyphs : List (Char × GlyphId)) : ReverseGlyphMap × Option Unit :=
  (dglyphs.foldl (fun m cg =>
    gsub.features.foldl (fun m feat =>
      match get_tag_variant feat.tag with
      | none => m
      | some tag_variant =>
        feat.lookup_indices.foldl (fun m lookup_idx =>
          match gsub.lookups.get? lookup_idx with
          | some lookup =>
            ((lookup.visit_glyph cg.2).1).foldl (fun m vg =>
              (m.insert (cg.1, tag_variant) vg).2) m
          | none => m) m) m) reverse_gmap,
   some ())

/-- `load_math_variants` from `font/mod.rs`: for every seed pair, visit the
math variants table for the seed glyph and insert every produced glyph with
`(codepoint, Variant::Math)`; returns `Some(())`. -/
def load_math_variants (reverse_gmap : ReverseGlyphMap) (variant : Variants)
    (dglyphs : List (Char × GlyphId)) : ReverseGlyphMap × Option Unit :=
  (dglyphs.foldl (fun m cg =>
    ((variant.visit_glyph cg.2).1).foldl (fun m vg =>
      (m.insert (cg.1, Variant.Math) vg).2) m) reverse_gmap,
   some ())

/-! ### Insert traces

`load_gsub` and `load_math_variants` thread the map through nested loops;
to reason about the final map we flatten the sequence of `insert` calls
each performs into an explicit list of `(glyph, (codepoint, variant))`
events in execution order. -/

/-- The sequence of inserts `load_gsub` performs, in execution order. -/
def gsubTrace (gsub : LayoutTable) (dglyphs : List (Char × GlyphId)) :
    List (GlyphId × (Char × Variant)) :=
  dglyphs.flatMap (fun cg =>
    gsub.features.flatMap (fun feat =>
      match get_tag_variant feat.tag with
      | none => []
      | some tag_variant =>
        feat.lookup_indices.flatMap (fun lookup_idx =>
          match gsub.lookups.get? lookup_idx with
          | some lookup =>
            ((lookup.visit_glyph cg.2).1).map (fun vg => (vg, (cg.1, tag_variant)))
          | none => [])))

/-- The sequence of inserts `load_math_variants` performs, in execution
order. -/
def mathTrace (variant : Variants) (dglyphs : List (Char × GlyphId)) :
    List (GlyphId × (Char × Variant)) :=
  dglyphs.flatMap (fun cg =>
    ((variant.visit_glyph cg.2).1).map (fun vg => (vg, (cg.1, Variant.Math))))

/-- Replay a list of insert events against a map. -/
def applyTrace (m : ReverseGlyphMap) (tr : List (GlyphId × (Char × Variant))) :
    ReverseGlyphMap :=
  tr.foldl (fun m e => (m.insert e.2 e.1).2) m

/-- The value of the last event in `tr` whose key is `k`, if any. -/
def lastValForKey : List (GlyphId × (Char × Variant)) → GlyphId → Option (Char × Variant)
  | [], _ => none
  | e :: tr, k =>
    match lastValForKey tr k with
    | some v => some v
    | none => if e.1 = k then some e.2 else none

/-- The glyphs one subtable contributes inside `Lookup::visit_glyph`:
`Single` and `Alternate` subtables are visited, every other kind is
skipped. -/
def subtableEmits : SubstitutionSubtable → GlyphId → List GlyphId
  | .single t, dglyph => (t.visit_glyph dglyph).1
  | .alternate t, dglyph => (t.visit_glyph dglyph).1
  | .other, _ => []

/-! ### Example font tables

Concrete instances of the table views, used to evaluate the claims on the
inputs the spec's testable properties name (codepoint `'a'` mapped to glyph
5, feature `"cv03"` as single substitution by delta +3 on glyph 5, math
variants for glyph 7). -/

/-- Coverage containing exactly glyph 5, at coverage index 0. -/
def exCoverage : Coverage := ⟨fun g => if g = 5 then some 0 else none⟩

/-- Feature `"cv03"` (bytes of the tag) referencing lookup 0. -/
def exFeature : Feature := ⟨[99, 118, 48, 51], [0]⟩

/-- The lookup of the example: one Format1 single substitution with
delta +3 on `exCoverage`. -/
def exLookup : Lookup := ⟨[.single (.format1 exCoverage 3)]⟩

/-- Layout table with the single feature `"cv03"` and the single lookup. -/
def exGsub : LayoutTable := ⟨[exFeature], [exLookup]⟩

/-- Seed list: codepoint `'a'` maps to glyph 5. -/
def exSeeds : List (Char × GlyphId) := [('a', 5)]

/-- Math variants: glyph 7 has horizontal variants [9, 10] and vertical
variants [11]. -/
def exMathVariants : Variants :=
  ⟨fun g => if g = 7 then some ⟨[⟨9⟩, ⟨10⟩]⟩ else none,
   fun g => if g = 7 then some ⟨[⟨11⟩]⟩ else none⟩

/-- Following the spec's words for tag classification, amended on the
suffix condition: the 2-character numeric suffix is accepted when it is
two decimal digits (value `10*d1 + d2`, leading zeros permitted) or — as
Rust's unsigned integer parsing also accepts — a `'+'` followed by one
decimal digit (value `d`); anything else is rejected. -/
def twoDigitValue : List Char → Option Nat
  | [a, b] =>
    if a.isDigit ∧ b.isDigit then some ((a.toNat - 48) * 10 + (b.toNat - 48))
    else if a = '+' ∧ b.isDigit then some (b.toNat - 48)
    else none
  | _ => none

/-- Following the spec's words (amended): `"ssty"` gives `Ssty`; a `"cv"`
prefix whose suffix is accepted by `twoDigitValue` with value 1..=99 gives
`CharacterVariant`; an `"ss"` prefix whose suffix is accepted with value
1..=20 gives `StylisticSet`; everything else is unsupported. -/
def get_tag_variant_spec (tag : List Nat) : Option Variant :=
  let s := tagChars tag
  if s = ['s', 's', 't', 'y'] then some Variant.Ssty
  else if s.take 2 = ['c', 'v'] then
    match twoDigitValue (s.drop 2) with
    | some n => if 1 ≤ n ∧ n ≤ 99 then some (Variant.CharacterVariant n) else none
    | none => none
  else if s.take 2 = ['s', 's'] then
    match twoDigitValue (s.drop 2) with
    | some n => if 1 ≤ n ∧ n ≤ 20 then some (Variant.StylisticSet n) else none
    | none => none
  else none

end Font

namespace Bibtex

/-- The `ScanRes` enum of `scan.rs`. -/
inductive ScanRes where
  | IdNull
  | SpecifiedCharAdjacent
  | OtherCharAdjacent
  | WhitespaceAdjacent
deriving DecidableEq

/-- Modelled from the spec: the lexical character classes assigned by
`char_info.rs` (`LexClass::of`), which is not under `src/`.  The scanner
only distinguishes the whitespace, alpha and numeric classes from the
rest, so the classifying function itself stays an explicit parameter
below. -/
inductive LexClass where
  | Whitespace
  | Alpha
  | Numeric
  | Other
deriving DecidableEq

/-- Modelled from the spec: the identifier character classification of
`char_info.rs` (`IdClass::of`), not under `src/`: a byte either is or is
not a legal identifier character. -/
inductive IdClass where
  | LegalIdChar
  | IllegalIdChar
deriving DecidableEq

/-- Modelled from the spec: the shared byte buffer of `buffer.rs` (not
under `src/`) restricted to what `scan_identifier` touches — the
`BufTy::Base` byte store (total: the cursors stay inside the allocation)
and its two cursor offsets, `offset(Base, 1)` (scan-start) and
`offset(Base, 2)` (current scan position). -/
structure Buffers where
  atBase : Nat → Nat
  offset1 : Nat
  offset2 : Nat

/-- The scan loop of `scan_identifier`:
`while idx < last && IdClass::of(buffers.at(Base, idx)) == LegalIdChar
{ idx += 1 }`, by recursion on the remaining fuel `last - idx` (the loop
only ever increments `idx`, so `last - idx` bounds its iterations). -/
def scanIdLoopAux (idOf : Nat → IdClass) (buf : Nat → Nat) : Nat → Nat → Nat
  | 0, idx => idx
  | fuel + 1, idx =>
    if idOf (buf idx) = IdClass.LegalIdChar then scanIdLoopAux idOf buf fuel (idx + 1)
    else idx

/-- The scan loop entered at `idx` with bound `last`: when `idx < last`
fails the fuel is 0 and the loop exits immediately, matching the `while`
condition. -/
def scanIdLoop (idOf : Nat → IdClass) (buf : Nat → Nat) (last idx : Nat) : Nat :=
  scanIdLoopAux idOf buf (last - idx) idx

/-- `scan_identifier` from `scan.rs`, parameterised by the two external
classifying functions: record the scan start in offset 1; unless the
starting character is numeric, run the identifier loop and store the final
cursor in offset 2; then classify the result from the consumed count and
the stopping character. -/
def scan_identifier (lexOf : Nat → LexClass) (idOf : Nat → IdClass)
    (char1 char2 char3 : Nat) (last : Nat) (b : Buffers) : ScanRes × Buffers :=
  let start := b.offset2
  let b1 : Buffers := { b with offset1 := start }
  let char0 := b1.atBase start
  let idxb : Nat × Buffers :=
    if lexOf char0 ≠ LexClass.Numeric then
      let idx := scanIdLoop idOf b1.atBase last start
      (idx, { b1 with offset2 := idx })
    else (start, b1)
  let idx := idxb.1
  let char := idxb.2.atBase idx
  if idx - start = 0 then (ScanRes.IdNull, idxb.2)
  else if lexOf char = LexClass.Whitespace ∨ idx = last then
    (ScanRes.WhitespaceAdjacent, idxb.2)
  else if char = char1 ∨ char = char2 ∨ char = char3 then
    (ScanRes.SpecifiedCharAdjacent, idxb.2)
  else (ScanRes.OtherCharAdjacent, idxb.2)

/-- The cursor position at which `scan_identifier` stops scanning: the
loop's final index when the starting character is non-numeric, the start
position otherwise. -/
def scanIdFinalIdx (lexOf : Nat → LexClass) (idOf : Nat → IdClass) (last : Nat)
    (b : Buffers) : Nat :=
  if lexOf (b.atBase b.offset2) ≠ LexClass.Numeric then
    scanIdLoop idOf b.atBase last b.offset2
  else b.offset2

/-- Example byte classifiers for the scanner: byte 97 (`'a'`) is an
alphabetic legal identifier character, byte 44 (`','`) is neither, byte 32
is whitespace, bytes 48..57 are numeric. -/
def exLexOf : Nat → LexClass := fun c =>
  if c = 32 then LexClass.Whitespace
  else if 48 ≤ c ∧ c ≤ 57 then LexClass.Numeric
  else if 97 ≤ c ∧ c ≤ 122 then LexClass.Alpha
  else LexClass.Other

/-- Example identifier classification: ASCII letters are legal identifier
characters, everything else is not. -/
def exIdOf : Nat → IdClass := fun c =>
  if 97 ≤ c ∧ c ≤ 122 then IdClass.LegalIdChar else IdClass.IllegalIdChar

/-- Example buffer: bytes `"ab,"` starting at position 0, both cursors at
0. -/
def exBuf : Buffers :=
  ⟨fun i => if i = 0 then 97 else if i = 1 then 98 else if i = 2 then 44 else 32, 0, 0⟩

end Bibtex

namespace Font

theorem find?_filter_ne {g k : GlyphId} (h : ¬ g = k) (l : List (GlyphId × (Char × Variant))) :
    (l.filter (fun p => ¬ p.1 = g)).find? (fun p => p.1 = k) = l.find? (fun p => p.1 = k) := by
  induction l with
  | nil => rfl
  | cons p l ih =>
    by_cases hp : p.1 = g
    · have h1 : (decide (¬ p.1 = g)) = false := by simp [hp]
      have h2 : (decide (p.1 = k)) = false := by simp [hp, h]
      simp only [List.filter_cons, h1, Bool.false_eq_true, if_false, List.find?_cons, h2]
      exact ih
    · have h1 : (decide (¬ p.1 = g)) = true := by simp [hp]
      simp only [List.filter_cons, h1, if_true, List.find?_cons]
      by_cases hk : p.1 = k
      · have h2 : (decide (p.1 = k)) = true := by simp [hk]
        simp only [h2]
      · have h2 : (decide (p.1 = k)) = false := by simp [hk]
        simp only [h2]
        exact ih

theorem query_usv_insert (m : ReverseGlyphMap) (usv : Char × Variant) (g k : GlyphId) :
    ((m.insert usv g).2).query_usv k = if g = k then some usv else m.query_usv k := by
  by_cases h : g = k
  · simp [ReverseGlyphMap.insert, ReverseGlyphMap.query_usv, List.find?_cons, h]
  · simp only [ReverseGlyphMap.insert, ReverseGlyphMap.query_usv, if_neg h]
    have hd : (decide (g = k)) = false := by simp [h]
    simp only [List.find?_cons, hd]
    rw [find?_filter_ne h]

theorem applyTrace_query (tr : List (GlyphId × (Char × Variant))) (m : ReverseGlyphMap)
    (k : GlyphId) :
    (applyTrace m tr).query_usv k =
      match lastValForKey tr k with
      | some v => some v
      | none => m.query_usv k := by
  induction tr generalizing m with
  | nil => rfl
  | cons e tr ih =>
    show (applyTrace ((m.insert e.2 e.1).2) tr).query_usv k = _
    rw [ih, lastValForKey]
    cases lastValForKey tr k with
    | some v => rfl
    | none =>
      rw [query_usv_insert]
      by_cases he : e.1 = k <;> simp [he]

theorem lastValForKey_mem {tr : List (GlyphId × (Char × Variant))} {k : GlyphId}
    {v : Char × Variant} (h : lastValForKey tr k = some v) : (k, v) ∈ tr := by
  induction tr with
  | nil => simp [lastValForKey] at h
  | cons e tr ih =>
    rw [lastValForKey] at h
    cases htr : lastValForKey tr k with
    | some w =>
      rw [htr] at h
      cases h
      exact List.mem_cons_of_mem _ (ih htr)
    | none =>
      rw [htr] at h
      by_cases he : e.1 = k
      · rw [if_pos he] at h
        cases h
        rw [← he]
        exact List.mem_cons_self _ _
      · rw [if_neg he] at h
        cases h

theorem applyTrace_append (m : ReverseGlyphMap) (a b : List (GlyphId × (Char × Variant))) :
    applyTrace m (a ++ b) = applyTrace (applyTrace m a) b :=
  List.foldl_append _ _ _ _

theorem foldl_trace_congr {α : Type} (f : α → List (GlyphId × (Char × Variant)))
    (body : ReverseGlyphMap → α → ReverseGlyphMap)
    (hb : ∀ m x, body m x = applyTrace m (f x)) (xs : List α) (m : ReverseGlyphMap) :
    xs.foldl body m = applyTrace m (xs.flatMap f) := by
  induction xs generalizing m with
  | nil => rfl
  | cons x xs ih =>
    rw [List.foldl_cons, hb, List.flatMap_cons, applyTrace_append, ih]

/-- The map `load_gsub` produces is exactly the replay of its insert trace. -/
theorem load_gsub_eq_applyTrace (m : ReverseGlyphMap) (gsub : LayoutTable)
    (dglyphs : List (Char × GlyphId)) :
    (load_gsub m gsub dglyphs).1 = applyTrace m (gsubTrace gsub dglyphs) := by
  refine foldl_trace_congr _ _ ?_ dglyphs m
  intro m cg
  refine foldl_trace_congr _ _ ?_ gsub.features m
  intro m feat
  cases htv : get_tag_variant feat.tag with
  | none => rfl
  | some tag_variant =>
    refine foldl_trace_congr _ _ ?_ feat.lookup_indices m
    intro m lookup_idx
    cases hlk : gsub.lookups.get? lookup_idx with
    | none => rfl
    | some lookup =>
      show List.foldl _ m _ = applyTrace m (List.map _ _)
      rw [List.map_eq_flatMap]
      exact foldl_trace_congr (fun vg => [(vg, (cg.1, tag_variant))])
        (fun m vg => (m.insert (cg.1, tag_variant) vg).2) (fun m vg => rfl) _ m

/-- The map `load_math_variants` produces is exactly the replay of its
insert trace. -/
theorem load_math_eq_applyTrace (m : ReverseGlyphMap) (variant : Variants)
    (dglyphs : List (Char × GlyphId)) :
    (load_math_variants m variant dglyphs).1 = applyTrace m (mathTrace variant dglyphs) := by
  refine foldl_trace_congr _ _ ?_ dglyphs m
  intro m cg
  show List.foldl _ m _ = applyTrace m (List.map _ _)
  rw [List.map_eq_flatMap]
  exact foldl_trace_congr (fun vg => [(vg, (cg.1, Variant.Math))])
    (fun m vg => (m.insert (cg.1, Variant.Math) vg).2) (fun m vg => rfl) _ m

theorem lookup_foldl_emits (sts : List SubstitutionSubtable) (dglyph : GlyphId)
    (acc : List GlyphId) :
    sts.foldl (fun acc subtable =>
      match subtable with
      | .single t => acc ++ (t.visit_glyph dglyph).1
      | .alternate t => acc ++ (t.visit_glyph dglyph).1
      | .other => acc) acc = acc ++ sts.flatMap (fun st => subtableEmits st dglyph) := by
  induction sts generalizing acc with
  | nil => simp
  | cons st sts ih =>
    rw [List.foldl_cons, List.flatMap_cons]
    cases st with
    | single t => rw [ih, List.append_assoc]; rfl
    | alternate t => rw [ih, List.append_assoc]; rfl
    | other => rw [ih]; rfl

/-- `Lookup::visit_glyph` emits the concatenation, in subtable order, of
what each subtable emits. -/
theorem lookup_visit_eq_flatMap (l : Lookup) (dglyph : GlyphId) :
    (l.visit_glyph dglyph).1 = l.subtables.flatMap (fun st => subtableEmits st dglyph) := by
  show l.subtables.foldl _ [] = _
  rw [lookup_foldl_emits]
  rfl

theorem lastValForKey_isSome_of_mem {tr : List (GlyphId × (Char × Variant))} {k : GlyphId}
    {v : Char × Variant} (h : (k, v) ∈ tr) : ∃ w, lastValForKey tr k = some w := by
  induction tr with
  | nil => cases h
  | cons e tr ih =>
    rw [lastValForKey]
    cases htr : lastValForKey tr k with
    | some w => exact ⟨w, rfl⟩
    | none =>
      rcases List.mem_cons.mp h with he | hmem
      · refine ⟨e.2, ?_⟩
        rw [← he]
        simp
      · rcases ih hmem with ⟨w, hw⟩
        rw [htr] at hw
        cases hw

/-- The memberships describing one produced glyph put its insert event in
`gsubTrace`. -/
theorem mem_gsubTrace_of_path {gsub : LayoutTable} {dglyphs : List (Char × GlyphId)}
    {c : Char} {g : GlyphId} {feat : Feature} {v : Variant} {lookup_idx : Nat}
    {lookup : Lookup} {vg : GlyphId}
    (hseed : (c, g) ∈ dglyphs) (hfeat : feat ∈ gsub.features)
    (htag : get_tag_variant feat.tag = some v)
    (hidx : lookup_idx ∈ feat.lookup_indices)
    (hlook : gsub.lookups.get? lookup_idx = some lookup)
    (hvg : vg ∈ (lookup.visit_glyph g).1) :
    (vg, (c, v)) ∈ gsubTrace gsub dglyphs := by
  unfold gsubTrace
  refine List.mem_flatMap.mpr ⟨(c, g), hseed, ?_⟩
  refine List.mem_flatMap.mpr ⟨feat, hfeat, ?_⟩
  rw [htag]
  refine List.mem_flatMap.mpr ⟨lookup_idx, hidx, ?_⟩
  rw [hlook]
  exact List.mem_map.mpr ⟨vg, hvg, rfl⟩

/-! ### Claim theorems -/

/-- C1: after `load_gsub`, every seed pair `(c, g)`, supported feature
variant `v`, resolving lookup index, and glyph `vg` produced by visiting
that lookup for `g` has an entry in the map, and `query_usv vg = some (c,
v)` unless a later insert in table order overwrote key `vg` (i.e. whenever
the last insert event for key `vg` carries `(c, v)`). -/
theorem C1_load_gsub_query (m : ReverseGlyphMap) (gsub : LayoutTable)
    (dglyphs : List (Char × GlyphId)) (c : Char) (g : GlyphId) (feat : Feature)
    (v : Variant) (lookup_idx : Nat) (lookup : Lookup) (vg : GlyphId)
    (hseed : (c, g) ∈ dglyphs) (hfeat : feat ∈ gsub.features)
    (htag : get_tag_variant feat.tag = some v)
    (hidx : lookup_idx ∈ feat.lookup_indices)
    (hlook : gsub.lookups.get? lookup_idx = some lookup)
    (hvg : vg ∈ (lookup.visit_glyph g).1) :
    (∃ w, ((load_gsub m gsub dglyphs).1).query_usv vg = some w)
    ∧ (lastValForKey (gsubTrace gsub dglyphs) vg = some (c, v) →
        ((load_gsub m gsub dglyphs).1).query_usv vg = some (c, v)) := by
  have hmem : (vg, (c, v)) ∈ gsubTrace gsub dglyphs :=
    mem_gsubTrace_of_path hseed hfeat htag hidx hlook hvg
  rcases lastValForKey_isSome_of_mem hmem with ⟨w, hw⟩
  constructor
  · refine ⟨w, ?_⟩
    rw [load_gsub_eq_applyTrace, applyTrace_query, hw]
  · intro hlast
    rw [load_gsub_eq_applyTrace, applyTrace_query, hlast]

/-- C1 witness: in the example font (`'a'` → glyph 5, feature `"cv03"` a
single substitution by delta +3 covering glyph 5), after `load_gsub`,
glyph 8 maps back to `('a', CharacterVariant 3)`. -/
theorem C1_load_gsub_query_witness :
    ((load_gsub ReverseGlyphMap.new exGsub exSeeds).1).query_usv 8
      = some ('a', Variant.CharacterVariant 3) :=
  (C1_load_gsub_query ReverseGlyphMap.new exGsub exSeeds 'a' 5 exFeature
      (Variant.CharacterVariant 3) 0 exLookup 8
      (by decide) (by decide) (by decide) (by decide) (by rfl)
      (by decide)).2 (by decide)

/-- C2: every key in the map after `load_gsub` followed by
`load_math_variants` (starting from the empty map) was produced from some
seed pair, either through a feature whose tag classifies as supported or
through the math variants table. -/
theorem C2_reachability (gsub : LayoutTable) (mv : Variants)
    (dglyphs : List (Char × GlyphId)) (k : GlyphId) (val : Char × Variant)
    (h : ((load_math_variants (load_gsub ReverseGlyphMap.new gsub dglyphs).1
            mv dglyphs).1).query_usv k = some val) :
    (∃ c g feat v lookup_idx lookup, (c, g) ∈ dglyphs ∧ feat ∈ gsub.features
      ∧ get_tag_variant feat.tag = some v ∧ lookup_idx ∈ feat.lookup_indices
      ∧ gsub.lookups.get? lookup_idx = some lookup ∧ k ∈ (lookup.visit_glyph g).1)
    ∨ (∃ c g, (c, g) ∈ dglyphs ∧ k ∈ (mv.visit_glyph g).1) := by
  rw [load_math_eq_applyTrace, load_gsub_eq_applyTrace, ← applyTrace_append,
    applyTrace_query] at h
  have hmem : (k, val) ∈ gsubTrace gsub dglyphs ++ mathTrace mv dglyphs := by
    cases hl : lastValForKey (gsubTrace gsub dglyphs ++ mathTrace mv dglyphs) k with
    | none =>
      rw [hl] at h
      cases h
    | some w =>
      rw [hl] at h
      cases h
      exact lastValForKey_mem hl
  rcases List.mem_append.mp hmem with hg | hm
  · left
    unfold gsubTrace at hg
    rcases List.mem_flatMap.mp hg with ⟨cg, hcg, hg⟩
    rcases List.mem_flatMap.mp hg with ⟨feat, hfeat, hg⟩
    cases htag : get_tag_variant feat.tag with
    | none =>
      rw [htag] at hg
      cases hg
    | some v =>
      rw [htag] at hg
      rcases List.mem_flatMap.mp hg with ⟨lookup_idx, hidx, hg⟩
      cases hlook : gsub.lookups.get? lookup_idx with
      | none =>
        rw [hlook] at hg
        cases hg
      | some lookup =>
        rw [hlook] at hg
        rcases List.mem_map.mp hg with ⟨vg, hvg, hpair⟩
        refine ⟨cg.1, cg.2, feat, v, lookup_idx, lookup, ?_, hfeat, htag, hidx, hlook, ?_⟩
        · exact hcg
        · have hk : vg = k := congrArg Prod.fst hpair
          rw [← hk]
          exact hvg
  · right
    unfold mathTrace at hm
    rcases List.mem_flatMap.mp hm with ⟨cg, hcg, hm⟩
    rcases List.mem_map.mp hm with ⟨vg, hvg, hpair⟩
    refine ⟨cg.1, cg.2, hcg, ?_⟩
    have hk : vg = k := congrArg Prod.fst hpair
    rw [← hk]
    exact hvg

/-- C2 witness: in the example font the key 8 holds `('a',
CharacterVariant 3)` after both loads, and the theorem produces its
production path. -/
theorem C2_reachability_witness :
    (∃ c g feat v lookup_idx lookup, (c, g) ∈ exSeeds ∧ feat ∈ exGsub.features
      ∧ get_tag_variant feat.tag = some v ∧ lookup_idx ∈ feat.lookup_indices
      ∧ exGsub.lookups.get? lookup_idx = some lookup
      ∧ 8 ∈ (lookup.visit_glyph g).1)
    ∨ (∃ c g, (c, g) ∈ exSeeds ∧ 8 ∈ (exMathVariants.visit_glyph g).1) :=
  C2_reachability exGsub exMathVariants exSeeds 8 ('a', Variant.CharacterVariant 3)
    (by decide)

/-- C4: for a Format1 single-substitution subtable with a `u16` input
glyph and an `i16` delta, a coverage hit yields exactly one glyph equal to
`(g + delta) mod 2^16`, the signed sum staying inside the `i32` range
before truncation, and the result is a valid `u16`; a coverage miss yields
no glyphs. -/
theorem C4_single_sub_delta (coverage : Coverage) (delta : Int) (g : GlyphId)
    (hg : g < 65536) (hdlo : -32768 ≤ delta) (hdhi : delta < 32768) :
    (∀ i, coverage.get g = some i →
      ((SingleSubstitution.format1 coverage delta).visit_glyph g).1
        = [((Int.ofNat g + delta) % 65536).toNat])
    ∧ (coverage.get g = none →
      ((SingleSubstitution.format1 coverage delta).visit_glyph g).1 = [])
    ∧ (-(2 ^ 31) ≤ Int.ofNat g + delta ∧ Int.ofNat g + delta < 2 ^ 31)
    ∧ ((Int.ofNat g + delta) % 65536).toNat < 65536 := by
  refine ⟨?_, ?_, ?_, ?_⟩
  · intro i hi
    simp [SingleSubstitution.visit_glyph, hi]
  · intro hmiss
    simp [SingleSubstitution.visit_glyph, hmiss]
  · have hgi : Int.ofNat g < 65536 := by
      simp only [Int.ofNat_eq_natCast]
      exact_mod_cast hg
    have hg0 : 0 ≤ Int.ofNat g := by
      simp only [Int.ofNat_eq_natCast]
      positivity
    constructor <;> omega
  · have h1 : (0 : Int) ≤ (Int.ofNat g + delta) % 65536 := Int.emod_nonneg _ (by omega)
    have h2 : (Int.ofNat g + delta) % 65536 < 65536 := Int.emod_lt_of_pos _ (by omega)
    omega

/-- C4 witness: glyph 5, delta +3, coverage `{5}` — visiting 5 yields
exactly `[8]` and visiting 8 yields `[]`. -/
theorem C4_single_sub_delta_witness :
    ((SingleSubstitution.format1 exCoverage 3).visit_glyph 5).1 = [8]
    ∧ ((SingleSubstitution.format1 exCoverage 3).visit_glyph 8).1 = [] :=
  ⟨by
    have h := (C4_single_sub_delta exCoverage 3 5 (by decide) (by decide) (by decide)).1
      0 (by decide)
    rw [h]
    decide,
   (C4_single_sub_delta exCoverage 3 8 (by decide) (by decide) (by decide)).2.1 (by decide)⟩

/-- C5: for an alternate-substitution subtable, a coverage hit whose index
resolves to an alternate set yields that whole set in stored order; a
coverage miss, or a coverage index with no alternate set, yields no
glyphs. -/
theorem C5_alternate_sub (t : AlternateSubstitution) (g : GlyphId) :
    (∀ i a, t.coverage.get g = some i → t.alternate_sets.get? i = some a →
      (t.visit_glyph g).1 = a.alternates)
    ∧ (t.coverage.get g = none → (t.visit_glyph g).1 = [])
    ∧ (∀ i, t.coverage.get g = some i → t.alternate_sets.get? i = none →
      (t.visit_glyph g).1 = []) := by
  refine ⟨?_, ?_, ?_⟩
  · intro i a hi ha
    rw [List.get?_eq_getElem?] at ha
    simp [AlternateSubstitution.visit_glyph, hi, ha]
  · intro hmiss
    simp [AlternateSubstitution.visit_glyph, hmiss]
  · intro i hi ha
    rw [List.get?_eq_getElem?] at ha
    simp [AlternateSubstitution.visit_glyph, hi, ha]

/-- C5 witness: coverage(5) = 0, alternate sets `[[20, 30]]` — visiting 5
yields `[20, 30]` in stored order; visiting 6 (not covered) yields `[]`. -/
theorem C5_alternate_sub_witness :
    ((AlternateSubstitution.mk exCoverage [⟨[20, 30]⟩]).visit_glyph 5).1 = [20, 30]
    ∧ ((AlternateSubstitution.mk exCoverage [⟨[20, 30]⟩]).visit_glyph 6).1 = [] :=
  ⟨(C5_alternate_sub (AlternateSubstitution.mk exCoverage [⟨[20, 30]⟩]) 5).1
      0 ⟨[20, 30]⟩ (by decide) (by rfl),
   (C5_alternate_sub (AlternateSubstitution.mk exCoverage [⟨[20, 30]⟩]) 6).2.1 (by decide)⟩

/-- C6: for a Format2 single-substitution subtable, a coverage hit whose
index is present in the substitutes table yields exactly that substitute;
a coverage miss, or a dangling index into the substitutes table, yields no
glyphs. -/
theorem C6_single_sub_table (coverage : Coverage) (substitutes : List GlyphId) (g : GlyphId) :
    (∀ i s, coverage.get g = some i → substitutes.get? i = some s →
      ((SingleSubstitution.format2 coverage substitutes).visit_glyph g).1 = [s])
    ∧ (coverage.get g = none →
      ((SingleSubstitution.format2 coverage substitutes).visit_glyph g).1 = [])
    ∧ (∀ i, coverage.get g = some i → substitutes.get? i = none →
      ((SingleSubstitution.format2 coverage substitutes).visit_glyph g).1 = []) := by
  refine ⟨?_, ?_, ?_⟩
  · intro i s hi hs
    rw [List.get?_eq_getElem?] at hs
    simp [SingleSubstitution.visit_glyph, hi, hs]
  · intro hmiss
    simp [SingleSubstitution.visit_glyph, hmiss]
  · intro i hi hs
    rw [List.get?_eq_getElem?] at hs
    simp [SingleSubstitution.visit_glyph, hi, hs]

/-- C6 witness: coverage(5) = 0 with substitutes `[12]` yields `[12]` for
glyph 5; a coverage pointing glyph 6 at the out-of-range index 5 yields
`[]`. -/
theorem C6_single_sub_table_witness :
    ((SingleSubstitution.format2 exCoverage [12]).visit_glyph 5).1 = [12]
    ∧ ((SingleSubstitution.format2 ⟨fun g => if g = 6 then some 5 else none⟩
        [12]).visit_glyph 6).1 = [] :=
  ⟨(C6_single_sub_table exCoverage [12] 5).1 0 12 (by decide) (by decide),
   (C6_single_sub_table ⟨fun g => if g = 6 then some 5 else none⟩ [12] 6).2.2
      5 (by decide) (by decide)⟩

/-- C7: visiting the math variants table for a base glyph yields the
glyphs of its horizontal construction-variant list in stored order,
followed by those of its vertical list in stored order, with no
deduplication or reordering; a missing construction on either side
contributes zero glyphs and is not an error. -/
theorem C7_math_variants (v : Variants) (g : GlyphId) :
    (∀ hc vc, v.horizontal_constructions g = some hc →
      v.vertical_constructions g = some vc →
      (v.visit_glyph g).1 = hc.variants.map (fun r => r.variant_glyph)
        ++ vc.variants.map (fun r => r.variant_glyph))
    ∧ (∀ vc, v.horizontal_constructions g = none →
      v.vertical_constructions g = some vc →
      (v.visit_glyph g).1 = vc.variants.map (fun r => r.variant_glyph))
    ∧ (∀ hc, v.horizontal_constructions g = some hc →
      v.vertical_constructions g = none →
      (v.visit_glyph g).1 = hc.variants.map (fun r => r.variant_glyph))
    ∧ (v.horizontal_constructions g = none → v.vertical_constructions g = none →
      (v.visit_glyph g).1 = [])
    ∧ (v.visit_glyph g).2 = some () := by
  refine ⟨?_, ?_, ?_, ?_, rfl⟩
  · intro hc vc hh hv
    simp [Variants.visit_glyph, hh, hv]
  · intro vc hh hv
    simp [Variants.visit_glyph, hh, hv]
  · intro hc hh hv
    simp [Variants.visit_glyph, hh, hv]
  · intro hh hv
    simp [Variants.visit_glyph, hh, hv]

/-- C7 witness: glyph 7 with horizontal variants `[9, 10]` and vertical
variants `[11]` yields exactly `[9, 10, 11]`. -/
theorem C7_math_variants_witness :
    (exMathVariants.visit_glyph 7).1 = [9, 10, 11] := by
  have h := (C7_math_variants exMathVariants 7).1 ⟨[⟨9⟩, ⟨10⟩]⟩ ⟨[⟨11⟩]⟩
    (by rfl) (by rfl)
  rw [h]
  decide

/-- C8: the reverse glyph map is last-write-wins — inserting `u1` then
`u2` under the same key leaves `query_usv` at `u2`, the second insert
returns the overwritten `u1`, any insert returns the previously stored
value for its key (or `none`), and an insert changes `query_usv` at its
own key only. -/
theorem C8_reverse_map (m : ReverseGlyphMap) (k k2 : GlyphId) (u1 u2 : Char × Variant) :
    ((((m.insert u1 k).2).insert u2 k).2.query_usv k = some u2)
    ∧ ((((m.insert u1 k).2).insert u2 k).1 = some u1)
    ∧ ((m.insert u1 k).1 = m.query_usv k)
    ∧ ((m.insert u1 k).2.query_usv k2 = if k = k2 then some u1 else m.query_usv k2) := by
  refine ⟨?_, ?_, rfl, query_usv_insert m u1 k k2⟩
  · rw [query_usv_insert]
    simp
  · show (m.insert u1 k).2.query_usv k = some u1
    rw [query_usv_insert]
    simp

/-- C10: `load_gsub` and `load_math_variants` always return `Some(())`;
the `None` a dangling Format2 substitute index produces inside a lookup is
discarded by `Lookup::visit_glyph`, so the glyphs a lookup emits are the
concatenation over all its subtables — subtables after a failing one are
still processed. -/
theorem C10_loaders_never_fail (m m2 : ReverseGlyphMap) (gsub : LayoutTable) (v : Variants)
    (dglyphs dglyphs2 : List (Char × GlyphId)) (l : Lookup) (g : GlyphId)
    (pre post : List SubstitutionSubtable) (hsplit : l.subtables = pre ++ post) :
    ((load_gsub m gsub dglyphs).2 = some ())
    ∧ ((load_math_variants m2 v dglyphs2).2 = some ())
    ∧ ((l.visit_glyph g).1
        = ((Lookup.mk pre).visit_glyph g).1 ++ ((Lookup.mk post).visit_glyph g).1) := by
  refine ⟨rfl, rfl, ?_⟩
  rw [lookup_visit_eq_flatMap, lookup_visit_eq_flatMap, lookup_visit_eq_flatMap]
  show (l.subtables).flatMap _ = (pre.flatMap _) ++ (post.flatMap _)
  rw [hsplit, List.flatMap_append]

/-- C10 witness: a lookup whose first subtable is a Format2 with a
dangling substitute index (coverage(5) = 0 but an empty substitutes table)
still emits the glyphs of the Format1 subtable that follows it, and the
loaders return `Some(())` on the example font. -/
theorem C10_loaders_never_fail_witness :
    ((load_gsub ReverseGlyphMap.new exGsub exSeeds).2 = some ())
    ∧ ((load_math_variants ReverseGlyphMap.new exMathVariants exSeeds).2 = some ())
    ∧ ((Lookup.mk [.single (.format2 exCoverage []),
          .single (.format1 exCoverage 3)]).visit_glyph 5).1
        = ((Lookup.mk [.single (.format2 exCoverage [])]).visit_glyph 5).1
          ++ ((Lookup.mk [.single (.format1 exCoverage 3)]).visit_glyph 5).1 :=
  C10_loaders_never_fail ReverseGlyphMap.new ReverseGlyphMap.new exGsub exMathVariants
    exSeeds exSeeds
    (Lookup.mk [.single (.format2 exCoverage []), .single (.format1 exCoverage 3)]) 5
    [.single (.format2 exCoverage [])] [.single (.format1 exCoverage 3)] rfl

end Font

namespace Font

theorem toNat_le_of_isDigit {c : Char} (h : c.isDigit = true) : 48 ≤ c.toNat ∧ c.toNat ≤ 57 := by
  simp only [Char.isDigit, Bool.and_eq_true, decide_eq_true_eq] at h
  obtain ⟨h1, h2⟩ := h
  exact ⟨by exact_mod_cast h1, by exact_mod_cast h2⟩

/-- On two-character suffixes, Rust's `u16` parsing agrees with the
amended two-digit-or-plus-digit acceptance. -/
theorem rustParseU16_two (a b : Char) : rustParseU16 [a, b] = twoDigitValue [a, b] := by
  by_cases ha : a = '+'
  · subst ha
    have hpd : ('+').isDigit = false := by decide
    by_cases hb : b.isDigit
    · have hble := (toNat_le_of_isDigit hb).2
      simp [rustParseU16, twoDigitValue, digitVal, hb, hpd]
      omega
    · simp [rustParseU16, twoDigitValue, digitVal, hb, hpd]
  · by_cases had : a.isDigit
    · by_cases hb : b.isDigit
      · have ha1 := toNat_le_of_isDigit had
        have hb1 := toNat_le_of_isDigit hb
        simp [rustParseU16, twoDigitValue, digitVal, ha, had, hb]
        rw [if_pos (show a.toNat - 48 < 65536 by omega)]
        show (if (a.toNat - 48) * 10 + (b.toNat - 48) < 65536 then _ else none) = _
        rw [if_pos (show (a.toNat - 48) * 10 + (b.toNat - 48) < 65536 by omega)]
      · simp [rustParseU16, twoDigitValue, digitVal, ha, had, hb]
    · have hb2 : ¬ (a.isDigit ∧ b.isDigit) := fun h => had h.1
      simp [rustParseU16, twoDigitValue, digitVal, ha, had]

/-- C3 counterexample: the tag `"cv+3"` (bytes 99, 118, 43, 51) has a
suffix that is not two decimal digits (`'+'` is not a digit), yet
`get_tag_variant` classifies it as `CharacterVariant 3`, because Rust's
unsigned parse accepts a leading `'+'`. -/
theorem C3_plus_sign_counterexample :
    get_tag_variant [99, 118, 43, 51] = some (Variant.CharacterVariant 3)
    ∧ tagChars [99, 118, 43, 51] = ['c', 'v', '+', '3']
    ∧ ('+').isDigit = false := by
  refine ⟨?_, by decide, by decide⟩
  decide

/-- C3 (amended): for every 4-byte tag, `get_tag_variant` returns `Ssty`
exactly for `"ssty"`, `CharacterVariant n` exactly for prefix `"cv"` with
a suffix of two decimal digits (or `'+'` and one digit) of value
1 ≤ n ≤ 99, `StylisticSet n` likewise for prefix `"ss"` with 1 ≤ n ≤ 20,
and `None` for every other tag — as captured by `get_tag_variant_spec`. -/
theorem C3_get_tag_variant_amended (tag : List Nat) (h : tag.length = 4) :
    get_tag_variant tag = get_tag_variant_spec tag := by
  obtain ⟨a, b, c, d, rfl⟩ : ∃ a b c d, tag = [a, b, c, d] := by
    match tag, h with
    | [a, b, c, d], _ => exact ⟨a, b, c, d, rfl⟩
  simp only [get_tag_variant, get_tag_variant_spec, tagChars, List.map_cons, List.map_nil,
    List.take_succ_cons, List.take_zero, List.drop_succ_cons, List.drop_zero]
  by_cases hssty :
      [Char.ofNat a, Char.ofNat b, Char.ofNat c, Char.ofNat d] = ['s', 's', 't', 'y']
  · simp only [if_pos hssty]
  · simp only [if_neg hssty]
    by_cases hcv : [Char.ofNat a, Char.ofNat b] = ['c', 'v']
    · simp only [if_pos hcv, rustParseU16_two]
      cases h2 : twoDigitValue [Char.ofNat c, Char.ofNat d] with
      | none => rfl
      | some n =>
        by_cases hr : 1 ≤ n ∧ n ≤ 99
        · simp [Option.filter, hr]
        · simp [Option.filter, hr]
    · simp only [if_neg hcv]
      by_cases hss : [Char.ofNat a, Char.ofNat b] = ['s', 's']
      · simp only [if_pos hss, rustParseU16_two]
        cases h2 : twoDigitValue [Char.ofNat c, Char.ofNat d] with
        | none => rfl
        | some n =>
          by_cases hr : 1 ≤ n ∧ n ≤ 20
          · simp [Option.filter, hr]
          · simp [Option.filter, hr]
      · simp only [if_neg hss]

/-- C3 amended witness: on the tag `"cv03"` the classifier and the amended
specification agree (both give `CharacterVariant 3`). -/
theorem C3_get_tag_variant_amended_witness :
    get_tag_variant [99, 118, 48, 51] = get_tag_variant_spec [99, 118, 48, 51]
    ∧ get_tag_variant [99, 118, 48, 51] = some (Variant.CharacterVariant 3) :=
  ⟨C3_get_tag_variant_amended [99, 118, 48, 51] (by decide), by decide⟩

end Font

namespace Bibtex

theorem scanIdLoopAux_ge (idOf : Nat → IdClass) (buf : Nat → Nat) (fuel : Nat) :
    ∀ idx, idx ≤ scanIdLoopAux idOf buf fuel idx := by
  induction fuel with
  | zero => intro idx; exact Nat.le_refl idx
  | succ fuel ih =>
    intro idx
    rw [scanIdLoopAux]
    split
    · exact Nat.le_trans (Nat.le_succ idx) (ih (idx + 1))
    · exact Nat.le_refl idx

theorem scanIdFinalIdx_ge (lexOf : Nat → LexClass) (idOf : Nat → IdClass) (last : Nat)
    (b : Buffers) : b.offset2 ≤ scanIdFinalIdx lexOf idOf last b := by
  unfold scanIdFinalIdx scanIdLoop
  split
  · exact scanIdLoopAux_ge idOf b.atBase _ b.offset2
  · exact Nat.le_refl _

/-- The scan result of `scan_identifier` as a function of the final cursor
position and the stopping character. -/
theorem scan_identifier_fst (lexOf : Nat → LexClass) (idOf : Nat → IdClass)
    (char1 char2 char3 last : Nat) (b : Buffers) :
    (scan_identifier lexOf idOf char1 char2 char3 last b).1 =
      (if scanIdFinalIdx lexOf idOf last b - b.offset2 = 0 then ScanRes.IdNull
       else if lexOf (b.atBase (scanIdFinalIdx lexOf idOf last b)) = LexClass.Whitespace
           ∨ scanIdFinalIdx lexOf idOf last b = last then ScanRes.WhitespaceAdjacent
       else if b.atBase (scanIdFinalIdx lexOf idOf last b) = char1
           ∨ b.atBase (scanIdFinalIdx lexOf idOf last b) = char2
           ∨ b.atBase (scanIdFinalIdx lexOf idOf last b) = char3 then
         ScanRes.SpecifiedCharAdjacent
       else ScanRes.OtherCharAdjacent) := by
  by_cases hnum : lexOf (b.atBase b.offset2) ≠ LexClass.Numeric
  · have hF : scanIdFinalIdx lexOf idOf last b = scanIdLoop idOf b.atBase last b.offset2 := by
      rw [scanIdFinalIdx, if_pos hnum]
    rw [hF]
    simp only [scan_identifier]
    rw [if_pos hnum]
    simp only [apply_ite Prod.fst]
  · have hF : scanIdFinalIdx lexOf idOf last b = b.offset2 := by
      rw [scanIdFinalIdx, if_neg hnum]
    rw [hF]
    simp only [scan_identifier]
    rw [if_neg hnum]
    simp only [apply_ite Prod.fst, Nat.sub_self]

end Bibtex

namespace Bibtex

/-- C9: `scan_identifier` returns `IdNull` exactly when zero identifier
characters are consumed (in particular whenever the starting character is
of numeric lexical class); otherwise it returns `WhitespaceAdjacent` when
the stopping character is of whitespace class or the cursor reached
`last`; otherwise `SpecifiedCharAdjacent` when the stopping character is
one of the three delimiters; otherwise `OtherCharAdjacent`. -/
theorem C9_scan_identifier (lexOf : Nat → LexClass) (idOf : Nat → IdClass)
    (char1 char2 char3 last : Nat) (b : Buffers) :
    ((scan_identifier lexOf idOf char1 char2 char3 last b).1 = ScanRes.IdNull
      ↔ scanIdFinalIdx lexOf idOf last b = b.offset2)
    ∧ (lexOf (b.atBase b.offset2) = LexClass.Numeric →
      (scan_identifier lexOf idOf char1 char2 char3 last b).1 = ScanRes.IdNull)
    ∧ (¬ scanIdFinalIdx lexOf idOf last b = b.offset2 →
      ((scan_identifier lexOf idOf char1 char2 char3 last b).1 = ScanRes.WhitespaceAdjacent
        ↔ (lexOf (b.atBase (scanIdFinalIdx lexOf idOf last b)) = LexClass.Whitespace
            ∨ scanIdFinalIdx lexOf idOf last b = last)))
    ∧ (¬ scanIdFinalIdx lexOf idOf last b = b.offset2 →
      ¬ (lexOf (b.atBase (scanIdFinalIdx lexOf idOf last b)) = LexClass.Whitespace
          ∨ scanIdFinalIdx lexOf idOf last b = last) →
      ((scan_identifier lexOf idOf char1 char2 char3 last b).1 = ScanRes.SpecifiedCharAdjacent
        ↔ (b.atBase (scanIdFinalIdx lexOf idOf last b) = char1
            ∨ b.atBase (scanIdFinalIdx lexOf idOf last b) = char2
            ∨ b.atBase (scanIdFinalIdx lexOf idOf last b) = char3)))
    ∧ (¬ scanIdFinalIdx lexOf idOf last b = b.offset2 →
      ¬ (lexOf (b.atBase (scanIdFinalIdx lexOf idOf last b)) = LexClass.Whitespace
          ∨ scanIdFinalIdx lexOf idOf last b = last) →
      ¬ (b.atBase (scanIdFinalIdx lexOf idOf last b) = char1
          ∨ b.atBase (scanIdFinalIdx lexOf idOf last b) = char2
          ∨ b.atBase (scanIdFinalIdx lexOf idOf last b) = char3) →
      (scan_identifier lexOf idOf char1 char2 char3 last b).1
        = ScanRes.OtherCharAdjacent) := by
  have hge := scanIdFinalIdx_ge lexOf idOf last b
  rw [scan_identifier_fst lexOf idOf char1 char2 char3 last b]
  refine ⟨?_, ?_, ?_, ?_, ?_⟩
  · by_cases hz : scanIdFinalIdx lexOf idOf last b - b.offset2 = 0
    · have he : scanIdFinalIdx lexOf idOf last b = b.offset2 := by omega
      simp [hz, he]
    · have hne : ¬ scanIdFinalIdx lexOf idOf last b = b.offset2 := by omega
      simp only [if_neg hz]
      constructor
      · intro hcon
        split at hcon
        · cases hcon
        · split at hcon
          · cases hcon
          · cases hcon
      · intro hcon
        exact absurd hcon hne
  · intro hnum
    have hFe : scanIdFinalIdx lexOf idOf last b = b.offset2 := by
      rw [scanIdFinalIdx, if_neg (not_not_intro hnum)]
    simp [hFe]
  · intro hne
    have hz : ¬ (scanIdFinalIdx lexOf idOf last b - b.offset2 = 0) := by omega
    simp only [if_neg hz]
    constructor
    · intro hcon
      by_contra hw
      rw [if_neg hw] at hcon
      split at hcon
      · cases hcon
      · cases hcon
    · intro hw
      rw [if_pos hw]
  · intro hne hw
    have hz : ¬ (scanIdFinalIdx lexOf idOf last b - b.offset2 = 0) := by omega
    simp only [if_neg hz, if_neg hw]
    constructor
    · intro hcon
      by_contra hs
      rw [if_neg hs] at hcon
      cases hcon
    · intro hs
      rw [if_pos hs]
  · intro hne hw hs
    have hz : ¬ (scanIdFinalIdx lexOf idOf last b - b.offset2 = 0) := by omega
    simp only [if_neg hz, if_neg hw, if_neg hs]

/-- C9 witness: scanning `"ab,"` from position 0 with delimiter `','`
(byte 44) consumes the two identifier characters and stops at the
delimiter, returning `SpecifiedCharAdjacent`. -/
theorem C9_scan_identifier_witness :
    (scan_identifier exLexOf exIdOf 44 0 0 5 exBuf).1 = ScanRes.SpecifiedCharAdjacent :=
  ((C9_scan_identifier exLexOf exIdOf 44 0 0 5 exBuf).2.2.2.1
    (by decide) (by decide)).mpr (by decide)

end Bibtex
